import Mathlib

/-!
Verification of the hex codec core (`hex-conservative`).

Shallow embedding conventions: bytes and ASCII characters are natural numbers
(byte values, resp. UTF-8 code units); strings are lists of character codes;
fallible operations return `Except`/`Option`, with `none` modelling a panic.
All definitions are translated from the crate sources (file and line references
in the doc comments).
-/

/-- Hex case selector (src/lib.rs `Case`). -/
inductive Case where
  | lower
  | upper
deriving DecidableEq

/-- Lower-case digit table `Table::LOWER` (src/lib.rs), as ASCII byte values. -/
def Table.lowerChars : List Nat :=
  [48, 49, 50, 51, 52, 53, 54, 55, 56, 57, 97, 98, 99, 100, 101, 102]

/-- Upper-case digit table `Table::UPPER` (src/lib.rs). -/
def Table.upperChars : List Nat :=
  [48, 49, 50, 51, 52, 53, 54, 55, 56, 57, 65, 66, 67, 68, 69, 70]

/-- `Case::table` (src/lib.rs). -/
def Case.table : Case → List Nat
  | .lower => Table.lowerChars
  | .upper => Table.upperChars

/-- `Table::byte_to_chars` / `byte_to_str` (src/lib.rs): the char of the high
nibble (`byte >> 4`) and of the low nibble (`byte & 0x0F`). -/
def byteToChars (t : List Nat) (byte : Nat) : Nat × Nat :=
  (t.getD (byte / 16) 0, t.getD (byte % 16) 0)

/-- Hex encoding of a byte sequence, two chars per byte, high nibble first
(src/iter.rs `BytesToHexIter`, src/buf_encoder.rs `put_byte`). -/
def encodeBytes (c : Case) : List Nat → List Nat
  | [] => []
  | x :: t => (byteToChars c.table x).1 :: (byteToChars c.table x).2 :: encodeBytes c t

/-- The chunked emission loop of `internal_display` (src/display.rs): the byte
slice goes through the encoder in 512-byte chunks, then the remainder. -/
def encodeChunks (c : Case) (bytes : List Nat) : List Nat :=
  if 512 ≤ bytes.length then
    encodeBytes c (bytes.take 512) ++ encodeChunks c (bytes.drop 512)
  else
    encodeBytes c bytes
termination_by bytes.length
decreasing_by
  simp only [List.length_drop]
  omega

/-- `char::to_digit(16)` on byte-valued chars, as used by `hex_chars_to_byte`
(src/iter.rs): `0`-`9`, `a`-`f`, `A`-`F` accepted, anything else rejected. -/
def toDigit16 (c : Nat) : Option Nat :=
  if 48 ≤ c ∧ c ≤ 57 then some (c - 48)
  else if 97 ≤ c ∧ c ≤ 102 then some (c - 87)
  else if 65 ≤ c ∧ c ≤ 70 then some (c - 55)
  else none

/-- `hex_chars_to_byte` (src/iter.rs): the error carries the offending char and
whether it was the high one; the result is truncated to a byte (`as u8`). -/
def hexCharsToByte (hi lo : Nat) : Except (Nat × Bool) Nat :=
  match toDigit16 hi with
  | none => .error (hi, true)
  | some hih =>
    match toDigit16 lo with
    | none => .error (lo, false)
    | some loh => .ok (((hih <<< 4) + loh) % 256)

/-- `InvalidCharError` (src/iter.rs variant): invalid char and its absolute
character position in the original string. -/
structure InvalidCharError where
  invalid : Nat
  pos : Nat
deriving DecidableEq

/-- `OddLengthStringError` (src/error.rs): carries the offending length. -/
structure OddLengthStringError where
  len : Nat
deriving DecidableEq

/-- The decode error kinds reachable from the decode entry points
(src/error.rs): invalid character, odd total length, or wrong total length for
a fixed-size target (expected, then actual). -/
inductive DecodeError where
  | invalidChar (e : InvalidCharError)
  | oddLength (len : Nat)
  | invalidLength (expected got : Nat)
deriving DecidableEq

deriving instance DecidableEq for Except

/-- `chunks_exact(2)` over the input chars (src/iter.rs `HexDigitsIter`): a
trailing odd char is never yielded. -/
def pairsOf : List Nat → List (Nat × Nat)
  | hi :: lo :: rest => (hi, lo) :: pairsOf rest
  | _ => []

/-- `HexToBytesIter` (src/iter.rs): the remaining pairs and the original pair
count `original_len` recorded by `from_pairs`. -/
structure HexToBytesIter where
  pairs : List (Nat × Nat)
  original_len : Nat
deriving DecidableEq

/-- `HexToBytesIter::new_unchecked` composed with `from_pairs` (src/iter.rs). -/
def HexToBytesIter.newUnchecked (s : List Nat) : HexToBytesIter :=
  ⟨pairsOf s, (pairsOf s).length⟩

/-- `HexToBytesIter::new` (src/iter.rs): an odd length is rejected before any
character is looked at. -/
def HexToBytesIter.new (s : List Nat) : Except OddLengthStringError HexToBytesIter :=
  if s.length % 2 ≠ 0 then .error ⟨s.length⟩ else .ok (HexToBytesIter.newUnchecked s)

/-- Result construction shared by `next` and `nth` (src/iter.rs): after the
pair is consumed, `restLen` pairs remain and an error is reported at position
`(original_len - restLen - 1) * 2`, plus one for the low nibble. -/
def frontRes (L restLen : Nat) (p : Nat × Nat) : Except InvalidCharError Nat :=
  match hexCharsToByte p.1 p.2 with
  | .ok b => .ok b
  | .error (c, isHigh) =>
    .error ⟨c, if isHigh then (L - restLen - 1) * 2 else (L - restLen - 1) * 2 + 1⟩

/-- Result construction shared by `next_back` and `nth_back` (src/iter.rs): an
error is reported at position `iter.len() * 2` after consumption, plus one for
the low nibble. -/
def backRes (restLen : Nat) (p : Nat × Nat) : Except InvalidCharError Nat :=
  match hexCharsToByte p.1 p.2 with
  | .ok b => .ok b
  | .error (c, isHigh) => .error ⟨c, if isHigh then restLen * 2 else restLen * 2 + 1⟩

/-- `Iterator::next` for `HexToBytesIter` (src/iter.rs). -/
def HexToBytesIter.next (it : HexToBytesIter) :
    Option (Except InvalidCharError Nat × HexToBytesIter) :=
  match it.pairs with
  | [] => none
  | p :: rest => some (frontRes it.original_len rest.length p, ⟨rest, it.original_len⟩)

/-- `DoubleEndedIterator::next_back` for `HexToBytesIter` (src/iter.rs). -/
def HexToBytesIter.nextBack (it : HexToBytesIter) :
    Option (Except InvalidCharError Nat × HexToBytesIter) :=
  match it.pairs.getLast? with
  | none => none
  | some p => some (backRes it.pairs.dropLast.length p, ⟨it.pairs.dropLast, it.original_len⟩)

/-- `Iterator::nth` for `HexToBytesIter` (src/iter.rs): skips `n` pairs, then
consumes and reports like `next`. -/
def HexToBytesIter.nth (it : HexToBytesIter) (n : Nat) :
    Option (Except InvalidCharError Nat × HexToBytesIter) :=
  match it.pairs.drop n with
  | [] => none
  | p :: rest => some (frontRes it.original_len rest.length p, ⟨rest, it.original_len⟩)

/-- `DoubleEndedIterator::nth_back` for `HexToBytesIter` (src/iter.rs): skips
`n` pairs from the back, then consumes and reports like `next_back`. -/
def HexToBytesIter.nthBack (it : HexToBytesIter) (n : Nat) :
    Option (Except InvalidCharError Nat × HexToBytesIter) :=
  if n < it.pairs.length then
    some (backRes (it.pairs.length - n - 1) (it.pairs.getD (it.pairs.length - n - 1) (0, 0)),
      ⟨it.pairs.take (it.pairs.length - n - 1), it.original_len⟩)
  else none

/-- Results of repeatedly calling `next` on `⟨ps, L⟩` until exhaustion. -/
def forwardAux (L : Nat) : List (Nat × Nat) → List (Except InvalidCharError Nat)
  | [] => []
  | p :: rest => frontRes L rest.length p :: forwardAux L rest

/-- All results of driving the iterator forwards with `next` until `none`. -/
def forwardList (it : HexToBytesIter) : List (Except InvalidCharError Nat) :=
  forwardAux it.original_len it.pairs

/-- Results of repeatedly consuming the head of an already-reversed pair list,
mirroring `next_back`. -/
def backAux : List (Nat × Nat) → List (Except InvalidCharError Nat)
  | [] => []
  | p :: rrest => backRes rrest.length p :: backAux rrest

/-- All results of driving the iterator backwards with `next_back` until `none`. -/
def backwardList (it : HexToBytesIter) : List (Except InvalidCharError Nat) :=
  backAux it.pairs.reverse

/-- Short-circuiting collection at the first error: the `?` loops of
`drain_to_vec` / `drain_to_slice` (src/iter.rs) and the `collect` of the `Vec`
`FromHex` instance (src/parse.rs). -/
def collectExcept : List (Except ε α) → Except ε (List α)
  | [] => .ok []
  | .error e :: _ => .error e
  | .ok a :: t => (collectExcept t).map (a :: ·)

/-- `decode_to_vec` (src/lib.rs): odd-length check via `HexToBytesIter::new`,
then `drain_to_vec`. -/
def decodeToVec (s : List Nat) : Except DecodeError (List Nat) :=
  match HexToBytesIter.new s with
  | .error e => .error (.oddLength e.len)
  | .ok it =>
    match collectExcept (forwardList it) with
    | .error e => .error (.invalidChar e)
    | .ok v => .ok v

/-- `decode_to_array` (src/lib.rs): exact length check first, then
`drain_to_slice` on the unchecked iterator. -/
def decodeToArray (N : Nat) (s : List Nat) : Except DecodeError (List Nat) :=
  if s.length = 2 * N then
    match collectExcept (forwardList (HexToBytesIter.newUnchecked s)) with
    | .error e => .error (.invalidChar e)
    | .ok v => .ok v
  else
    .error (.invalidLength (2 * N) s.length)

/-- `FromHex::from_no_prefix_hex` instantiated at `Vec<u8>` (src/parse.rs). -/
def fromNoPrefixHexVec (s : List Nat) : Except DecodeError (List Nat) :=
  match HexToBytesIter.new s with
  | .error e => .error (.oddLength e.len)
  | .ok it =>
    match collectExcept (forwardList it) with
    | .error e => .error (.invalidChar e)
    | .ok v => .ok v

/-- `FromHex::from_hex` for `Vec<u8>`, which just calls `from_no_prefix_hex`
(src/parse.rs). -/
def fromHexVec (s : List Nat) : Except DecodeError (List Nat) :=
  fromNoPrefixHexVec s

/-- `from_byte_iter` of the `[u8; N]` instance (src/parse.rs
`impl_fromhex_array`): pair count checked against `N`, otherwise an invalid
length error carrying `2 * N` expected and `2 * iter.len()` actual. -/
def fromByteIterArray (N : Nat) (it : HexToBytesIter) : Except DecodeError (List Nat) :=
  if it.pairs.length = N then
    match collectExcept (forwardList it) with
    | .error e => .error (.invalidChar e)
    | .ok v => .ok v
  else
    .error (.invalidLength (2 * N) (2 * it.pairs.length))

/-- `<[u8; N]>::from_hex` = `from_no_prefix_hex`: `HexToBytesIter::new` (odd
length propagated via `?`) followed by the array `from_byte_iter`
(src/parse.rs). -/
def fromHexArray (N : Nat) (s : List Nat) : Except DecodeError (List Nat) :=
  match HexToBytesIter.new s with
  | .error e => .error (.oddLength e.len)
  | .ok it => fromByteIterArray N it

/-- `str::starts_with` applied to the literal `0x` (48 = ASCII `0`,
120 = ASCII `x`), as in src/parse.rs. -/
def startsWith0x : List Nat → Bool
  | 48 :: 120 :: _ => true
  | _ => false

/-- `str::trim_start_matches` applied to the literal `0x`: removes every
leading occurrence, not just one (src/parse.rs). -/
def trimStart0x : List Nat → List Nat
  | 48 :: 120 :: t => trimStart0x t
  | s => s

/-- `PrefixedError` (src/parse.rs): decode failure, or missing `0x` carrying
the input. -/
inductive PrefixedErr where
  | parseHex (e : DecodeError)
  | missingPfx (s : List Nat)
deriving DecidableEq

/-- `FromHex::from_maybe_prefixed_hex` at `Vec<u8>` (src/parse.rs). -/
def fromMaybePfxHexVec (s : List Nat) : Except DecodeError (List Nat) :=
  if startsWith0x s then fromNoPrefixHexVec (trimStart0x s)
  else fromNoPrefixHexVec s

/-- `FromHex::from_prefixed_hex` at `Vec<u8>` (src/parse.rs). -/
def fromPfxHexVec (s : List Nat) : Except PrefixedErr (List Nat) :=
  if startsWith0x s = false then .error (.missingPfx s)
  else
    match fromNoPrefixHexVec (trimStart0x s) with
    | .ok v => .ok v
    | .error e => .error (.parseHex e)

/-- The hex body emitted by `internal_display` (src/display.rs), excluding the
padding and the optional prefix. In the truncating branch the whole-byte part
is written through the `Display` impl of `DisplayByteSlice` with a fresh
default formatter, i.e. through `LowerHex`, so it is encoded with `Case::Lower`
whatever `case` was requested; only the trailing odd nibble uses `case`. -/
def internalDisplayBody (bytes : List Nat) (precision : Option Nat) (c : Case) : List Nat :=
  match precision with
  | some max =>
    if max / 2 < bytes.length then
      encodeChunks Case.lower (bytes.take (max / 2)) ++
        (if max % 2 = 1 then [(byteToChars c.table (bytes.getD (max / 2) 0)).1] else [])
    else encodeChunks c bytes
  | none => encodeChunks c bytes

/-- The hex body emitted by `fmt_hex_exact_fn` (src/display.rs), excluding the
padding and the optional prefix; `N` is the const generic, documented to equal
twice the byte count. -/
def fmtHexExactBody (N : Nat) (bytes : List Nat) (precision : Option Nat) (c : Case) : List Nat :=
  match precision with
  | some p =>
    if p < N then (encodeBytes c (bytes.take ((p + 1) / 2))).take p
    else encodeBytes c bytes
  | none => encodeBytes c bytes

/-- Formatter alignment directive (`core::fmt::Alignment`). -/
inductive FmtAlignment where
  | left
  | right
  | center
deriving DecidableEq

/-- The unpadded rendered length computed by `write_pad_left` (src/display.rs):
`bytes_len * 2`, plus 2 for the alternate flag, clamped to the precision. -/
def unpaddedLen (bytesLen : Nat) (alternate : Bool) (precision : Option Nat) : Nat :=
  let full := if alternate then bytesLen * 2 + 2 else bytesLen * 2
  match precision with
  | some m => min m full
  | none => full

/-- The left and right pad amounts chosen by `write_pad_left` (src/display.rs);
the left amount is emitted there and the right amount later by
`write_pad_right`. -/
def writePadAmounts (width stringLen : Nat) (align : Option FmtAlignment) : Nat × Nat :=
  if stringLen < width then
    match align.getD .left with
    | .left => (0, width - stringLen)
    | .right => (width - stringLen, 0)
    | .center => ((width - stringLen) / 2, (width - stringLen + 1) / 2)
  else (0, 0)

/-- Number of fill characters emitted by the chunked filler loops of
`write_pad_left` / `write_pad_right` (src/display.rs) for a pad amount `count`
and a fill char of UTF-8 length `fillerLen`, through the cleared 1024-byte
encoder: `chunk_len = put_filler(c, count)` repetitions per full chunk,
`count / chunk_len` full chunks, then the `count % chunk_len` remainder. -/
def emittedFillCount (fillerLen count : Nat) : Nat :=
  (count / min (1024 / fillerLen) count) * min (1024 / fillerLen) count
    + count % min (1024 / fillerLen) count

/-- `BufEncoder` (src/buf_encoder.rs): capacity in chars, buffer contents as
UTF-8 code units, and the chosen case. -/
structure BufEncoder where
  cap : Nat
  buf : List Nat
  case : Case
deriving DecidableEq

/-- `BufEncoder::new` (src/buf_encoder.rs); the even-capacity static check is
carried as a hypothesis where needed. -/
def BufEncoder.new (cap : Nat) (c : Case) : BufEncoder := ⟨cap, [], c⟩

/-- `space_remaining` (src/buf_encoder.rs): free bytes before encoding, i.e.
free chars over two. -/
def BufEncoder.spaceRemaining (e : BufEncoder) : Nat := (e.cap - e.buf.length) / 2

/-- `put_byte` (src/buf_encoder.rs): `ArrayString::push_str` of the two hex
chars panics when they do not fit; `none` models the panic. -/
def BufEncoder.putByte (e : BufEncoder) (x : Nat) : Option BufEncoder :=
  if e.buf.length + 2 ≤ e.cap then
    some { e with buf := e.buf ++ [(byteToChars e.case.table x).1, (byteToChars e.case.table x).2] }
  else none

/-- The `for` loop of `put_bytes_inner` (src/buf_encoder.rs). -/
def BufEncoder.putBytesLoop : BufEncoder → List Nat → Option BufEncoder
  | e, [] => some e
  | e, x :: t =>
    match e.putByte x with
    | none => none
    | some e2 => BufEncoder.putBytesLoop e2 t

/-- `put_bytes` (src/buf_encoder.rs): for a slice the size hint is exact, so an
overflowing write is rejected whole by the assert, then bytes are appended one
by one. -/
def BufEncoder.putBytes (e : BufEncoder) (bs : List Nat) : Option BufEncoder :=
  if bs.length ≤ e.spaceRemaining then BufEncoder.putBytesLoop e bs else none

/-- `put_bytes_min` (src/buf_encoder.rs): writes the longest fitting front part
and returns the rest of the input. -/
def BufEncoder.putBytesMin (e : BufEncoder) (bs : List Nat) :
    Option (BufEncoder × List Nat) :=
  (e.putBytes (bs.take (min e.spaceRemaining bs.length))).map
    (fun e2 => (e2, bs.drop (min e.spaceRemaining bs.length)))

/-- `put_filler` (src/buf_encoder.rs); `filler` is the UTF-8 encoding of the
fill character. Returns the updated encoder and the repetition count actually
written. -/
def BufEncoder.putFiller (e : BufEncoder) (filler : List Nat) (maxCount : Nat) :
    BufEncoder × Nat :=
  let maxCapacity := (e.cap - e.buf.length) / filler.length
  let toWrite := min maxCapacity maxCount
  ({ e with buf := e.buf ++ (List.replicate toWrite filler).flatten }, toWrite)

/-- `clear` (src/buf_encoder.rs). -/
def BufEncoder.clear (e : BufEncoder) : BufEncoder := { e with buf := [] }

/-- One public `BufEncoder` operation. -/
inductive EncOp where
  | putByte (x : Nat)
  | putBytes (bs : List Nat)
  | putBytesMin (bs : List Nat)
  | putFiller (filler : List Nat) (maxCount : Nat)
  | clear
deriving DecidableEq

/-- Run one operation; `none` models a panic of the operation. -/
def runOp (e : BufEncoder) : EncOp → Option BufEncoder
  | .putByte x => e.putByte x
  | .putBytes bs => e.putBytes bs
  | .putBytesMin bs => (e.putBytesMin bs).map Prod.fst
  | .putFiller f m => some (e.putFiller f m).1
  | .clear => some e.clear

/-- Run a sequence of operations, stopping at the first panic. -/
def runOps : BufEncoder → List EncOp → Option BufEncoder
  | e, [] => some e
  | e, op :: t =>
    match runOp e op with
    | none => none
    | some e2 => runOps e2 t

example : decodeToVec [100, 101, 97, 100] = .ok [222, 173] := by decide
example : decodeToVec [97, 98, 99] = .error (.oddLength 3) := by decide
example : decodeToVec [122, 122, 97, 98] = .error (.invalidChar ⟨122, 0⟩) := by decide
example : forwardList (HexToBytesIter.newUnchecked [122, 122, 97, 98])
    = [.error ⟨122, 0⟩, .ok 171] := by decide
example : backwardList (HexToBytesIter.newUnchecked [100, 101, 97, 103])
    = [.error ⟨103, 3⟩, .ok 222] := by decide

/-- Map with an explicit running index, used to characterise the positions the
iterator reports. -/
def mapFrom (f : Nat → α → β) : Nat → List α → List β
  | _, [] => []
  | k, a :: t => f k a :: mapFrom f (k + 1) t

/-- Reported result for the pair with 0-based pair index `k`: an error carries
character position `k * 2` (high nibble) or `k * 2 + 1` (low nibble). -/
def pairStep (k : Nat) (p : Nat × Nat) : Except InvalidCharError Nat :=
  match hexCharsToByte p.1 p.2 with
  | .ok b => .ok b
  | .error (c, isHigh) => .error ⟨c, if isHigh then k * 2 else k * 2 + 1⟩

theorem frontRes_eq_pairStep (L r : Nat) (p : Nat × Nat) :
    frontRes L r p = pairStep (L - r - 1) p := by
  unfold frontRes pairStep
  rcases hexCharsToByte p.1 p.2 with ⟨c, isHigh⟩ | b <;> rfl

theorem backRes_eq_pairStep (r : Nat) (p : Nat × Nat) :
    backRes r p = pairStep r p := by
  unfold backRes pairStep
  rcases hexCharsToByte p.1 p.2 with ⟨c, isHigh⟩ | b <;> rfl

theorem frontRes_of_ok (L r : Nat) (p : Nat × Nat) (b : Nat)
    (h : hexCharsToByte p.1 p.2 = .ok b) : frontRes L r p = .ok b := by
  unfold frontRes
  rw [h]

theorem mapFrom_length (f : Nat → α → β) (k : Nat) (l : List α) :
    (mapFrom f k l).length = l.length := by
  induction l generalizing k with
  | nil => rfl
  | cons a t ih => simp [mapFrom, ih]

theorem mapFrom_getElem? (f : Nat → α → β) (k j : Nat) (l : List α) :
    (mapFrom f k l)[j]? = (l[j]?).map (f (k + j)) := by
  induction l generalizing k j with
  | nil => simp [mapFrom]
  | cons a t ih =>
    cases j with
    | zero => simp [mapFrom]
    | succ j =>
      have e : k + (j + 1) = k + 1 + j := by omega
      simp only [mapFrom, List.getElem?_cons_succ, e, ih (k + 1) j]

theorem mapFrom_append (f : Nat → α → β) (k : Nat) (l1 l2 : List α) :
    mapFrom f k (l1 ++ l2) = mapFrom f k l1 ++ mapFrom f (k + l1.length) l2 := by
  induction l1 generalizing k with
  | nil => simp [mapFrom]
  | cons a t ih =>
    have e : k + (t.length + 1) = k + 1 + t.length := by omega
    show f k a :: mapFrom f (k + 1) (t ++ l2)
      = f k a :: mapFrom f (k + 1) t ++ mapFrom f (k + (t.length + 1)) l2
    rw [ih (k + 1), e]
    rfl

theorem forwardAux_eq_mapFrom (ps : List (Nat × Nat)) (L k : Nat) (h : L = k + ps.length) :
    forwardAux L ps = mapFrom pairStep k ps := by
  induction ps generalizing k with
  | nil => rfl
  | cons p rest ih =>
    simp only [forwardAux, mapFrom]
    have h1 : frontRes L rest.length p = pairStep k p := by
      rw [frontRes_eq_pairStep]
      congr 1
      simp only [List.length_cons] at h
      omega
    rw [h1, ih (k + 1) (by simp only [List.length_cons] at h; omega)]

theorem forwardAux_length (L : Nat) (ps : List (Nat × Nat)) :
    (forwardAux L ps).length = ps.length := by
  induction ps with
  | nil => rfl
  | cons p rest ih => simp [forwardAux, ih]

theorem backAux_eq_mapFrom (qs : List (Nat × Nat)) :
    backAux qs = (mapFrom pairStep 0 qs.reverse).reverse := by
  induction qs with
  | nil => rfl
  | cons q r ih =>
    rw [backAux, backRes_eq_pairStep, ih, List.reverse_cons, mapFrom_append]
    simp [mapFrom]

/-- The forward pass of a fresh iterator reports each pair at its own index. -/
theorem forwardList_newUnchecked (s : List Nat) :
    forwardList (HexToBytesIter.newUnchecked s) = mapFrom pairStep 0 (pairsOf s) := by
  unfold forwardList HexToBytesIter.newUnchecked
  exact forwardAux_eq_mapFrom _ _ 0 (by simp)

/-- The backward pass of a fresh iterator reports each pair at its own index,
yielding the pairs back to front. -/
theorem backwardList_newUnchecked (s : List Nat) :
    backwardList (HexToBytesIter.newUnchecked s) = (mapFrom pairStep 0 (pairsOf s)).reverse := by
  unfold backwardList HexToBytesIter.newUnchecked
  rw [backAux_eq_mapFrom]
  simp

theorem pairsOf_length : ∀ s : List Nat, (pairsOf s).length = s.length / 2
  | [] => by simp [pairsOf]
  | [_] => by simp [pairsOf]
  | _ :: _ :: rest => by
    simp only [pairsOf, List.length_cons, pairsOf_length rest]
    omega

theorem pairsOf_getElem? : ∀ (s : List Nat) (k : Nat), 2 * k + 1 < s.length →
    (pairsOf s)[k]? = some (s.getD (2 * k) 0, s.getD (2 * k + 1) 0)
  | [], k, h => by simp at h
  | [_], k, h => by simp at h
  | a :: b :: rest, 0, h => by
    simp [pairsOf, List.getD]
  | a :: b :: rest, k + 1, h => by
    have h2 : 2 * k + 1 < rest.length := by
      simp only [List.length_cons] at h
      omega
    have e1 : 2 * (k + 1) = 2 * k + 1 + 1 := by omega
    have e2 : 2 * (k + 1) + 1 = 2 * k + 1 + 1 + 1 := by omega
    simp only [pairsOf, List.getElem?_cons_succ, pairsOf_getElem? rest k h2, e1, e2,
      List.getD_cons_succ]

theorem encodeBytes_length (c : Case) : ∀ b : List Nat, (encodeBytes c b).length = 2 * b.length
  | [] => rfl
  | x :: t => by
    simp only [encodeBytes, List.length_cons, encodeBytes_length c t]
    omega

theorem pairsOf_encodeBytes (c : Case) :
    ∀ b : List Nat, pairsOf (encodeBytes c b) = b.map (fun x => byteToChars c.table x)
  | [] => rfl
  | x :: t => by
    simp only [encodeBytes, pairsOf, pairsOf_encodeBytes c t, List.map_cons]

theorem toDigit16_table (c : Case) (n : Fin 16) :
    toDigit16 (c.table.getD n.val 0) = some n.val := by
  cases c <;> (revert n; decide)

theorem hexCharsToByte_encode (c : Case) (x : Nat) (h : x < 256) :
    hexCharsToByte (byteToChars c.table x).1 (byteToChars c.table x).2 = .ok x := by
  have h1 : x / 16 < 16 := by omega
  have h2 : x % 16 < 16 := by omega
  have e1 := toDigit16_table c ⟨x / 16, h1⟩
  have e2 := toDigit16_table c ⟨x % 16, h2⟩
  simp only [byteToChars, hexCharsToByte, e1, e2, Nat.shiftLeft_eq]
  norm_num
  omega

theorem forwardAux_encode (c : Case) (L : Nat) :
    ∀ b : List Nat, (∀ x ∈ b, x < 256) →
      forwardAux L (b.map (fun x => byteToChars c.table x)) = b.map Except.ok
  | [], _ => rfl
  | x :: t, h => by
    have hx : x < 256 := h x (by simp)
    have ht : ∀ y ∈ t, y < 256 := fun y hy => h y (by simp [hy])
    simp only [List.map_cons, forwardAux]
    rw [frontRes_of_ok _ _ _ x (hexCharsToByte_encode c x hx), forwardAux_encode c L t ht]

theorem collectExcept_map_ok : ∀ l : List α, collectExcept (l.map (Except.ok (ε := ε))) = .ok l
  | [] => rfl
  | a :: t => by
    simp only [List.map_cons, collectExcept, collectExcept_map_ok t, Except.map]

/-- C1: decoding the hex encoding of any byte sequence yields the sequence
back, for both cases and for all four decode paths: `decode_to_vec`,
`decode_to_array` with `N` equal to the byte count, `Vec::from_hex`, and
`<[u8; N]>::from_hex`. -/
theorem encode_decode_roundtrip (b : List Nat) (c : Case) (h : ∀ x ∈ b, x < 256) :
    decodeToVec (encodeBytes c b) = .ok b
    ∧ decodeToArray b.length (encodeBytes c b) = .ok b
    ∧ fromHexVec (encodeBytes c b) = .ok b
    ∧ fromHexArray b.length (encodeBytes c b) = .ok b := by
  have hlen : (encodeBytes c b).length = 2 * b.length := encodeBytes_length c b
  have heven : ¬ (encodeBytes c b).length % 2 ≠ 0 := by omega
  have hpairs : pairsOf (encodeBytes c b) = b.map (fun x => byteToChars c.table x) :=
    pairsOf_encodeBytes c b
  have hfwd : forwardList (HexToBytesIter.newUnchecked (encodeBytes c b)) = b.map Except.ok := by
    unfold forwardList HexToBytesIter.newUnchecked
    rw [hpairs]
    exact forwardAux_encode c _ b h
  have hcol : collectExcept (b.map (Except.ok (ε := InvalidCharError))) = .ok b :=
    collectExcept_map_ok b
  have hnew : HexToBytesIter.new (encodeBytes c b)
      = .ok (HexToBytesIter.newUnchecked (encodeBytes c b)) := by
    simp [HexToBytesIter.new, heven]
  have hplen : (pairsOf (encodeBytes c b)).length = b.length := by
    rw [hpairs, List.length_map]
  refine ⟨?_, ?_, ?_, ?_⟩
  · simp [decodeToVec, hnew, hfwd, hcol]
  · simp [decodeToArray, hlen, hfwd, hcol]
  · simp [fromHexVec, fromNoPrefixHexVec, hnew, hfwd, hcol]
  · simp [fromHexArray, fromByteIterArray, hnew, hfwd, hcol, hplen,
      show (HexToBytesIter.newUnchecked (encodeBytes c b)).pairs = pairsOf (encodeBytes c b)
        from rfl]

/-- C1 witness: the round trip evaluated on the concrete bytes 0xde 0xad. -/
theorem encode_decode_roundtrip_witness :
    (∀ x ∈ [222, 173], x < 256)
    ∧ (decodeToVec (encodeBytes .lower [222, 173]) = .ok [222, 173]
      ∧ decodeToArray (List.length [222, 173]) (encodeBytes .lower [222, 173]) = .ok [222, 173]
      ∧ fromHexVec (encodeBytes .lower [222, 173]) = .ok [222, 173]
      ∧ fromHexArray (List.length [222, 173]) (encodeBytes .lower [222, 173]) = .ok [222, 173]) :=
  ⟨by decide, encode_decode_roundtrip [222, 173] .lower (by decide)⟩

/-- C3: any odd-length input is rejected with an `OddLength` error carrying the
length, both by `HexToBytesIter::new` and by the growable-container decode
built on it, whatever the characters are (so the odd-length check observably
precedes any character-validity check). -/
theorem oddLength_first (s : List Nat) (h : s.length % 2 = 1) :
    HexToBytesIter.new s = .error ⟨s.length⟩
    ∧ decodeToVec s = .error (.oddLength s.length)
    ∧ fromHexVec s = .error (.oddLength s.length) := by
  have h2 : s.length % 2 ≠ 0 := by omega
  refine ⟨?_, ?_, ?_⟩ <;>
    simp [HexToBytesIter.new, decodeToVec, fromHexVec, fromNoPrefixHexVec, h2]

/-- C3 witness: the string `abz` (length 3, also containing the invalid char
`z`) reports `OddLength 3` everywhere. -/
theorem oddLength_first_witness :
    [97, 98, 122].length % 2 = 1
    ∧ (HexToBytesIter.new [97, 98, 122] = .error ⟨3⟩
      ∧ decodeToVec [97, 98, 122] = .error (.oddLength 3)
      ∧ fromHexVec [97, 98, 122] = .error (.oddLength 3)) :=
  ⟨by decide, oddLength_first [97, 98, 122] (by decide)⟩

/-- C10: the decoder iterator is not stopped by an invalid pair: every pair of
the input yields exactly one item of the forward stream (errors included), and
on the concrete input `zzab` the first `next` yields the error at position 0
while the following `next` yields `Ok 0xab` rather than `None`. -/
theorem iterator_continues_after_error :
    (∀ it : HexToBytesIter, (forwardList it).length = it.pairs.length)
    ∧ ((HexToBytesIter.newUnchecked [122, 122, 97, 98]).next).map Prod.fst
        = some (.error ⟨122, 0⟩)
    ∧ (((HexToBytesIter.newUnchecked [122, 122, 97, 98]).next).bind
        (fun p => p.2.next)).map Prod.fst = some (.ok 171)
    ∧ forwardList (HexToBytesIter.newUnchecked [122, 122, 97, 98])
        = [.error ⟨122, 0⟩, .ok 171] :=
  ⟨fun it => forwardAux_length it.original_len it.pairs, by decide, by decide, by decide⟩

theorem pairStep_corrupt (s : List Nat) (i : Nat) (hi : i < s.length)
    (hbad : toDigit16 (s.getD i 0) = none)
    (hgood : ∀ j, j < s.length → j ≠ i → (toDigit16 (s.getD j 0)).isSome) :
    pairStep (i / 2) (s.getD (2 * (i / 2)) 0, s.getD (2 * (i / 2) + 1) 0)
      = .error ⟨s.getD i 0, i⟩ := by
  rcases Nat.mod_two_eq_zero_or_one i with h2 | h2
  · have e0 : 2 * (i / 2) = i := by omega
    rw [e0]
    simp only [pairStep, hexCharsToByte, hbad]
    have e : i / 2 * 2 = i := by omega
    simp [e]
  · have hlt : 2 * (i / 2) < s.length := by omega
    have hne : 2 * (i / 2) ≠ i := by omega
    have hgd := hgood (2 * (i / 2)) hlt hne
    obtain ⟨d, hd⟩ := Option.isSome_iff_exists.mp hgd
    have e2 : 2 * (i / 2) + 1 = i := by omega
    rw [e2]
    simp only [pairStep, hexCharsToByte, hd, hbad]
    have e : i / 2 * 2 + 1 = i := by omega
    simp [e]

/-- C2 (amended): on an even-length input whose only non-hex character sits at
position `i`, a fresh decoder iterator reports an `InvalidCharError` at exactly
`i` under pure forward iteration (`next`, including the position formula
`(original_len - remaining_len - 1) * 2 (+ 1)`, and `nth`) and under pure
backward iteration (`next_back` and `nth_back`, whose positions are
`remaining_len * 2 (+ 1)`). The exactness does not survive interleaving the
two directions (see the counterexample). -/
theorem corrupt_position_reported (s : List Nat) (i : Nat)
    (hev : s.length % 2 = 0) (hi : i < s.length)
    (hbad : toDigit16 (s.getD i 0) = none)
    (hgood : ∀ j, j < s.length → j ≠ i → (toDigit16 (s.getD j 0)).isSome) :
    (forwardList (HexToBytesIter.newUnchecked s))[i / 2]?
        = some (.error ⟨s.getD i 0, i⟩)
    ∧ (backwardList (HexToBytesIter.newUnchecked s))[s.length / 2 - 1 - i / 2]?
        = some (.error ⟨s.getD i 0, i⟩)
    ∧ ((HexToBytesIter.newUnchecked s).nth (i / 2)).map Prod.fst
        = some (.error ⟨s.getD i 0, i⟩)
    ∧ ((HexToBytesIter.newUnchecked s).nthBack (s.length / 2 - 1 - i / 2)).map Prod.fst
        = some (.error ⟨s.getD i 0, i⟩) := by
  have hplt : 2 * (i / 2) + 1 < s.length := by omega
  have hpair := pairsOf_getElem? s (i / 2) hplt
  have key := pairStep_corrupt s i hi hbad hgood
  have hplen : (pairsOf s).length = s.length / 2 := pairsOf_length s
  have hhalf : i / 2 < s.length / 2 := by omega
  refine ⟨?_, ?_, ?_, ?_⟩
  · rw [forwardList_newUnchecked, mapFrom_getElem?, hpair]
    have e0 : 0 + i / 2 = i / 2 := by omega
    rw [e0]
    exact congrArg some key
  · rw [backwardList_newUnchecked]
    have hjlt : s.length / 2 - 1 - i / 2 < (mapFrom pairStep 0 (pairsOf s)).length := by
      rw [mapFrom_length, hplen]
      omega
    rw [List.getElem?_reverse (by rwa [mapFrom_length, hplen] at hjlt ⊢)]
    have e : (mapFrom pairStep 0 (pairsOf s)).length - 1 - (s.length / 2 - 1 - i / 2)
        = i / 2 := by
      rw [mapFrom_length, hplen]
      omega
    rw [e, mapFrom_getElem?, hpair]
    have e0 : 0 + i / 2 = i / 2 := by omega
    rw [e0]
    exact congrArg some key
  · unfold HexToBytesIter.nth
    have hdrop : (HexToBytesIter.newUnchecked s).pairs.drop (i / 2)
        = (s.getD (2 * (i / 2)) 0, s.getD (2 * (i / 2) + 1) 0)
          :: (pairsOf s).drop (i / 2 + 1) := by
      show (pairsOf s).drop (i / 2) = _
      rw [List.drop_eq_getElem_cons (by omega)]
      congr 1
      have := hpair
      rwa [List.getElem?_eq_getElem (by omega), Option.some_inj] at this
    rw [hdrop]
    show some (frontRes (HexToBytesIter.newUnchecked s).original_len
      ((pairsOf s).drop (i / 2 + 1)).length
      (s.getD (2 * (i / 2)) 0, s.getD (2 * (i / 2) + 1) 0)) = _
    rw [frontRes_eq_pairStep]
    have e : (HexToBytesIter.newUnchecked s).original_len
        - ((pairsOf s).drop (i / 2 + 1)).length - 1 = i / 2 := by
      show (pairsOf s).length - ((pairsOf s).drop (i / 2 + 1)).length - 1 = i / 2
      rw [List.length_drop, hplen]
      omega
    rw [e, key]
  · unfold HexToBytesIter.nthBack
    have hn : s.length / 2 - 1 - i / 2 < (HexToBytesIter.newUnchecked s).pairs.length := by
      show _ < (pairsOf s).length
      omega
    rw [if_pos hn]
    have e : (HexToBytesIter.newUnchecked s).pairs.length - (s.length / 2 - 1 - i / 2) - 1
        = i / 2 := by
      show (pairsOf s).length - _ - 1 = i / 2
      omega
    rw [e]
    have hgd : (HexToBytesIter.newUnchecked s).pairs.getD (i / 2) (0, 0)
        = (s.getD (2 * (i / 2)) 0, s.getD (2 * (i / 2) + 1) 0) := by
      show (pairsOf s).getD (i / 2) (0, 0) = _
      rw [List.getD_eq_getElem?_getD, hpair]
      rfl
    rw [hgd]
    rw [backRes_eq_pairStep, key]
    rfl

/-- C2 witness: the concrete string `z0` with the corruption at position 0. -/
theorem corrupt_position_reported_witness :
    ([122, 48].length % 2 = 0 ∧ 0 < [122, 48].length
      ∧ toDigit16 ([122, 48].getD 0 0) = none
      ∧ (∀ j, j < [122, 48].length → j ≠ 0 → (toDigit16 ([122, 48].getD j 0)).isSome))
    ∧ ((forwardList (HexToBytesIter.newUnchecked [122, 48]))[0 / 2]?
        = some (.error ⟨[122, 48].getD 0 0, 0⟩)
      ∧ (backwardList (HexToBytesIter.newUnchecked [122, 48]))[[122, 48].length / 2 - 1 - 0 / 2]?
        = some (.error ⟨[122, 48].getD 0 0, 0⟩)
      ∧ ((HexToBytesIter.newUnchecked [122, 48]).nth (0 / 2)).map Prod.fst
        = some (.error ⟨[122, 48].getD 0 0, 0⟩)
      ∧ ((HexToBytesIter.newUnchecked [122, 48]).nthBack
          ([122, 48].length / 2 - 1 - 0 / 2)).map Prod.fst
        = some (.error ⟨[122, 48].getD 0 0, 0⟩)) :=
  ⟨⟨by decide, by decide, by decide, by decide⟩,
    corrupt_position_reported [122, 48] 0 (by decide) (by decide) (by decide) (by decide)⟩

/-- C2 counterexample: in `00z0` the non-hex char `z` sits at position 2, yet
consuming one pair with `next` and then one with `next_back` reports the error
for the `z0` pair at position 0, not 2 — interleaved forward/backward
iteration does not report positions relative to the original string. -/
theorem interleave_position_counterexample :
    [48, 48, 122, 48].getD 2 0 = 122
    ∧ toDigit16 122 = none
    ∧ (((HexToBytesIter.newUnchecked [48, 48, 122, 48]).next).bind
        (fun p => p.2.nextBack)).map Prod.fst = some (.error ⟨122, 0⟩)
    ∧ (((HexToBytesIter.newUnchecked [48, 48, 122, 48]).next).bind
        (fun p => p.2.nextBack)).map Prod.fst ≠ some (.error ⟨122, 2⟩) := by
  refine ⟨by decide, by decide, by decide, by decide⟩

/-- C4 counterexample: `<[u8; 2]>::from_hex` on `abc` (length 3, not 4)
reports `OddLength 3`, not the `InvalidLength` error the claim requires. -/
theorem array_decode_oddLength_counterexample :
    fromHexArray 2 [97, 98, 99] = .error (.oddLength 3)
    ∧ fromHexArray 2 [97, 98, 99] ≠ .error (.invalidLength 4 3) := by
  refine ⟨by decide, by decide⟩

/-- C4 (amended): `decode_to_array` reports `InvalidLength` (expected `2 * N`,
actual length) for every length mismatch, before decoding any character, and
can never return an `OddLength` error; the `FromHex` array implementation also
reports `InvalidLength` with those fields for even-length mismatches, but via
`from_hex` an odd-length input is rejected as `OddLength` by the iterator
construction before the length check. -/
theorem array_decode_length_first (N : Nat) (s : List Nat) :
    (s.length ≠ 2 * N → decodeToArray N s = .error (.invalidLength (2 * N) s.length))
    ∧ (∀ l, decodeToArray N s ≠ .error (.oddLength l))
    ∧ (s.length % 2 = 0 → s.length ≠ 2 * N →
        fromHexArray N s = .error (.invalidLength (2 * N) s.length))
    ∧ (s.length % 2 = 1 → fromHexArray N s = .error (.oddLength s.length)) := by
  refine ⟨?_, ?_, ?_, ?_⟩
  · intro h
    simp [decodeToArray, h]
  · intro l
    unfold decodeToArray
    by_cases h : s.length = 2 * N
    · rw [if_pos h]
      cases hc : collectExcept (forwardList (HexToBytesIter.newUnchecked s)) <;> simp
    · rw [if_neg h]
      simp
  · intro hev hne
    have h2 : ¬ s.length % 2 ≠ 0 := by omega
    have hplen : (pairsOf s).length = s.length / 2 := pairsOf_length s
    have hnp : ¬ (pairsOf s).length = N := by omega
    have e : 2 * (pairsOf s).length = s.length := by omega
    simp [fromHexArray, HexToBytesIter.new, h2, fromByteIterArray, HexToBytesIter.newUnchecked,
      hnp, e]
  · intro h
    have h2 : s.length % 2 ≠ 0 := by omega
    simp [fromHexArray, HexToBytesIter.new, h2]

/-- C4 witness: length 2 input against `N = 2` (expected 4 chars). -/
theorem array_decode_length_first_witness :
    ([48, 49].length ≠ 2 * 2 ∧ [48, 49].length % 2 = 0)
    ∧ (decodeToArray 2 [48, 49] = .error (.invalidLength 4 2)
      ∧ fromHexArray 2 [48, 49] = .error (.invalidLength 4 2)) :=
  ⟨⟨by decide, by decide⟩,
    ⟨(array_decode_length_first 2 [48, 49]).1 (by decide),
      (array_decode_length_first 2 [48, 49]).2.2.1 (by decide) (by decide)⟩⟩

theorem encodeBytes_append (c : Case) :
    ∀ l1 l2 : List Nat, encodeBytes c (l1 ++ l2) = encodeBytes c l1 ++ encodeBytes c l2
  | [], _ => rfl
  | x :: t, l2 =>
    congrArg (fun l => (byteToChars c.table x).1 :: (byteToChars c.table x).2 :: l)
      (encodeBytes_append c t l2)

theorem encodeChunks_eq_aux (c : Case) : ∀ (n : Nat) (bytes : List Nat), bytes.length ≤ n →
    encodeChunks c bytes = encodeBytes c bytes
  | 0, bytes, h => by
    unfold encodeChunks
    have hnot : ¬ 512 ≤ bytes.length := by omega
    rw [if_neg hnot]
  | n + 1, bytes, h => by
    unfold encodeChunks
    by_cases h5 : 512 ≤ bytes.length
    · rw [if_pos h5,
        encodeChunks_eq_aux c n (bytes.drop 512) (by rw [List.length_drop]; omega),
        ← encodeBytes_append, List.take_append_drop]
    · rw [if_neg h5]

/-- The chunked emission loop concatenates to the plain encoding. -/
theorem encodeChunks_eq (c : Case) (bytes : List Nat) :
    encodeChunks c bytes = encodeBytes c bytes :=
  encodeChunks_eq_aux c bytes.length bytes (Nat.le_refl _)

/-- C5: `internal_display` with a precision that truncates loses the requested
case: for bytes `0xab 0xcd` under `UpperHex` with precision 2 the emitted body
is `ab` (the truncated whole-byte part is routed through `Display`, hence
`LowerHex`), while the first `min(P, 2 * byte_count)` characters of the full
upper-case encoding `ABCD` are `AB`. The array path `fmt_hex_exact_fn` keeps
the requested case on the same input. -/
theorem display_truncation_case_bug :
    internalDisplayBody [171, 205] (some 2) .upper = [97, 98]
    ∧ (encodeBytes .upper [171, 205]).take (min 2 (2 * [171, 205].length)) = [65, 66]
    ∧ internalDisplayBody [171, 205] (some 2) .upper
        ≠ (encodeBytes .upper [171, 205]).take (min 2 (2 * [171, 205].length))
    ∧ fmtHexExactBody 4 [171, 205] (some 2) .upper = [65, 66] := by
  have h1 : internalDisplayBody [171, 205] (some 2) .upper = [97, 98] := by
    simp only [internalDisplayBody, encodeChunks_eq]
    decide
  refine ⟨h1, by decide, ?_, by decide⟩
  rw [h1]
  decide

theorem emittedFillCount_eq (fillerLen n : Nat) : emittedFillCount fillerLen n = n := by
  unfold emittedFillCount
  rw [Nat.mul_comm]
  exact Nat.div_add_mod n _

/-- C6: when the unpadded rendered length `L` (as the adapter computes it from
the byte count, the alternate flag and the precision) is below the width `w`,
the chosen pad amounts split `w - L` according to the alignment — all right for
left alignment and for no requested alignment, all left for right alignment,
floor on the left and the remainder (the odd extra character on the right) for
center — and the chunked filler loops emit exactly the chosen amounts. -/
theorem pad_split_per_alignment (w bytesLen : Nat) (alt : Bool) (prec : Option Nat)
    (align : Option FmtAlignment) (fillerLen L : Nat)
    (hL : L = unpaddedLen bytesLen alt prec) (h : L < w) :
    (writePadAmounts w L align).1 + (writePadAmounts w L align).2 = w - L
    ∧ ((align = none ∨ align = some .left) → writePadAmounts w L align = (0, w - L))
    ∧ (align = some .right → writePadAmounts w L align = (w - L, 0))
    ∧ (align = some .center →
        writePadAmounts w L align = ((w - L) / 2, (w - L) - (w - L) / 2)
        ∧ (writePadAmounts w L align).1 ≤ (writePadAmounts w L align).2)
    ∧ emittedFillCount fillerLen (writePadAmounts w L align).1 = (writePadAmounts w L align).1
    ∧ emittedFillCount fillerLen (writePadAmounts w L align).2
        = (writePadAmounts w L align).2 := by
  have hemit := emittedFillCount_eq fillerLen
  rcases align with _ | a
  · have hw : writePadAmounts w L none = (0, w - L) := by
      simp [writePadAmounts, h, Option.getD]
    simp [hw, hemit]
  · cases a
    · have hw : writePadAmounts w L (some .left) = (0, w - L) := by
        simp [writePadAmounts, h, Option.getD]
      simp [hw, hemit]
    · have hw : writePadAmounts w L (some .right) = (w - L, 0) := by
        simp [writePadAmounts, h, Option.getD]
      simp [hw, hemit]
    · have hw : writePadAmounts w L (some .center) = ((w - L) / 2, (w - L + 1) / 2) := by
        simp [writePadAmounts, h, Option.getD]
      have e1 : (w - L) / 2 + (w - L + 1) / 2 = w - L := by omega
      have e2 : (w - L + 1) / 2 = (w - L) - (w - L) / 2 := by omega
      have e3 : (w - L) / 2 ≤ (w - L + 1) / 2 := by omega
      simp [hw, hemit, e1, e2, e3]
      omega

/-- C6 witness: width 8, two bytes, center alignment. -/
theorem pad_split_per_alignment_witness :
    ((4 : Nat) = unpaddedLen 2 false none ∧ 4 < 8)
    ∧ ((writePadAmounts 8 4 (some .center)).1 + (writePadAmounts 8 4 (some .center)).2 = 8 - 4
      ∧ ((some FmtAlignment.center = none ∨ some FmtAlignment.center = some .left) →
          writePadAmounts 8 4 (some .center) = (0, 8 - 4))
      ∧ (some FmtAlignment.center = some .right → writePadAmounts 8 4 (some .center) = (8 - 4, 0))
      ∧ (some FmtAlignment.center = some .center →
          writePadAmounts 8 4 (some .center) = ((8 - 4) / 2, (8 - 4) - (8 - 4) / 2)
          ∧ (writePadAmounts 8 4 (some .center)).1 ≤ (writePadAmounts 8 4 (some .center)).2)
      ∧ emittedFillCount 1 (writePadAmounts 8 4 (some .center)).1
          = (writePadAmounts 8 4 (some .center)).1
      ∧ emittedFillCount 1 (writePadAmounts 8 4 (some .center)).2
          = (writePadAmounts 8 4 (some .center)).2) :=
  ⟨⟨by decide, by decide⟩,
    pad_split_per_alignment 8 2 false none (some .center) 1 4 (by decide) (by decide)⟩

theorem putByte_some (e : BufEncoder) (x : Nat) (e2 : BufEncoder)
    (h : e.putByte x = some e2) :
    e2.cap = e.cap ∧ e2.case = e.case ∧ e2.buf.length = e.buf.length + 2
      ∧ e2.buf.length ≤ e.cap := by
  unfold BufEncoder.putByte at h
  split at h
  · rename_i hle
    simp only [Option.some.injEq] at h
    subst h
    simp
    omega
  · exact absurd h (by simp)

theorem putBytesLoop_some : ∀ (bs : List Nat) (e e2 : BufEncoder),
    BufEncoder.putBytesLoop e bs = some e2 →
    e2.cap = e.cap ∧ e2.case = e.case ∧ e2.buf.length = e.buf.length + 2 * bs.length
  | [], e, e2, h => by
    simp only [BufEncoder.putBytesLoop, Option.some.injEq] at h
    subst h
    simp
  | x :: t, e, e2, h => by
    unfold BufEncoder.putBytesLoop at h
    cases hb : e.putByte x with
    | none => rw [hb] at h; cases h
    | some e1 =>
      rw [hb] at h
      obtain ⟨hc, hcase, hl, _⟩ := putByte_some e x e1 hb
      obtain ⟨hc2, hcase2, hl2⟩ := putBytesLoop_some t e1 e2 h
      refine ⟨by rw [hc2, hc], by rw [hcase2, hcase], ?_⟩
      simp only [List.length_cons]
      omega

theorem putBytesLoop_total : ∀ (bs : List Nat) (e : BufEncoder),
    bs.length ≤ e.spaceRemaining →
    BufEncoder.putBytesLoop e bs = some { e with buf := e.buf ++ encodeBytes e.case bs }
  | [], e, _ => by
    simp [BufEncoder.putBytesLoop, encodeBytes]
  | x :: t, e, h => by
    have hsp : e.buf.length + 2 ≤ e.cap := by
      unfold BufEncoder.spaceRemaining at h
      simp only [List.length_cons] at h
      omega
    have hrest : t.length ≤ (BufEncoder.spaceRemaining
        { e with buf := e.buf ++ [(byteToChars e.case.table x).1,
            (byteToChars e.case.table x).2] }) := by
      unfold BufEncoder.spaceRemaining at h ⊢
      simp only [List.length_cons, List.length_append, List.length_cons, List.length_nil] at h ⊢
      omega
    unfold BufEncoder.putBytesLoop BufEncoder.putByte
    rw [if_pos hsp]
    show BufEncoder.putBytesLoop
        { e with buf := e.buf ++ [(byteToChars e.case.table x).1,
            (byteToChars e.case.table x).2] } t = _
    rw [putBytesLoop_total t _ hrest]
    simp [encodeBytes, List.append_assoc]

/-- Shared specification of `put_bytes_min`: it always succeeds, encodes the
longest fitting front part of the input, and returns the rest. -/
theorem putBytesMin_spec (e : BufEncoder) (bs : List Nat) :
    e.putBytesMin bs
      = some ({ e with
            buf := e.buf ++ encodeBytes e.case (bs.take (min e.spaceRemaining bs.length)) },
          bs.drop (min e.spaceRemaining bs.length)) := by
  unfold BufEncoder.putBytesMin BufEncoder.putBytes
  have hlen : (bs.take (min e.spaceRemaining bs.length)).length ≤ e.spaceRemaining := by
    rw [List.length_take]
    omega
  rw [if_pos hlen, putBytesLoop_total _ _ hlen]
  rfl

/-- C8: `put_bytes_min` never fails: it encodes exactly the first
`min(space_remaining, length)` bytes of the input into the buffer and returns
the unconsumed suffix (empty when everything was written). -/
theorem put_bytes_min_never_fails (e : BufEncoder) (bs : List Nat) :
    e.putBytesMin bs
      = some ({ e with
            buf := e.buf ++ encodeBytes e.case (bs.take (min e.spaceRemaining bs.length)) },
          bs.drop (min e.spaceRemaining bs.length))
    ∧ (bs.length ≤ e.spaceRemaining →
        (e.putBytesMin bs).map Prod.snd = some []) := by
  refine ⟨putBytesMin_spec e bs, fun hfit => ?_⟩
  have e2 : min e.spaceRemaining bs.length = bs.length := by omega
  rw [putBytesMin_spec e bs]
  simp [e2]

theorem putFiller_spec (e : BufEncoder) (filler : List Nat) (m : Nat) :
    ((e.putFiller filler m).1.cap = e.cap ∧ (e.putFiller filler m).1.case = e.case)
    ∧ (e.putFiller filler m).1.buf.length
        = e.buf.length + (min ((e.cap - e.buf.length) / filler.length) m) * filler.length := by
  refine ⟨⟨rfl, rfl⟩, ?_⟩
  unfold BufEncoder.putFiller
  simp only [List.length_append]
  congr 1
  rw [List.length_flatten, List.map_replicate, List.sum_replicate, smul_eq_mul,
    Nat.mul_comm]

theorem runOp_invariant (op : EncOp) (e e2 : BufEncoder) (h : runOp e op = some e2) :
    e2.cap = e.cap
    ∧ (e.buf.length ≤ e.cap → e2.buf.length ≤ e.cap)
    ∧ (e.buf.length % 2 = 0 → (∀ f m, op ≠ .putFiller f m) → e2.buf.length % 2 = 0) := by
  cases op with
  | putByte x =>
    obtain ⟨hc, _, hl, hb⟩ := putByte_some e x e2 h
    refine ⟨hc, fun _ => hb, fun hp _ => by omega⟩
  | putBytes bs =>
    simp only [runOp] at h
    unfold BufEncoder.putBytes at h
    split at h
    · rename_i hle
      obtain ⟨hc, _, hl⟩ := putBytesLoop_some bs e e2 h
      unfold BufEncoder.spaceRemaining at hle
      refine ⟨hc, fun hbl => by omega, fun hp _ => by omega⟩
    · exact absurd h (by simp)
  | putBytesMin bs =>
    simp only [runOp] at h
    rw [putBytesMin_spec] at h
    have h2 : ({ e with
        buf := e.buf ++ encodeBytes e.case (bs.take (min e.spaceRemaining bs.length)) }
        : BufEncoder) = e2 := Option.some.inj h
    subst h2
    have hel : (encodeBytes e.case (bs.take (min e.spaceRemaining bs.length))).length
        = 2 * (bs.take (min e.spaceRemaining bs.length)).length :=
      encodeBytes_length _ _
    have htk : (bs.take (min e.spaceRemaining bs.length)).length ≤ e.spaceRemaining := by
      rw [List.length_take]
      omega
    have hsp : e.spaceRemaining = (e.cap - e.buf.length) / 2 := rfl
    refine ⟨rfl, fun hbl => ?_, fun hp _ => ?_⟩
    · simp only [List.length_append, hel]
      omega
    · simp only [List.length_append, hel]
      omega
  | putFiller f m =>
    simp only [runOp, Option.some.injEq] at h
    subst h
    obtain ⟨⟨hc, _⟩, hl⟩ := putFiller_spec e f m
    refine ⟨hc, fun hbl => ?_, fun _ habs => absurd rfl (habs f m)⟩
    rw [hl]
    have hdb : (min ((e.cap - e.buf.length) / f.length) m) * f.length ≤ e.cap - e.buf.length := by
      calc (min ((e.cap - e.buf.length) / f.length) m) * f.length
          ≤ ((e.cap - e.buf.length) / f.length) * f.length :=
            Nat.mul_le_mul_right _ (Nat.min_le_left _ _)
        _ ≤ e.cap - e.buf.length := Nat.div_mul_le_self _ _
    omega
  | clear =>
    simp only [runOp, BufEncoder.clear, Option.some.injEq] at h
    subst h
    simp

theorem runOps_invariant : ∀ (ops : List EncOp) (e e2 : BufEncoder),
    runOps e ops = some e2 →
    e2.cap = e.cap
    ∧ (e.buf.length ≤ e.cap → e2.buf.length ≤ e.cap)
    ∧ (e.buf.length % 2 = 0 → (∀ op ∈ ops, ∀ f m, op ≠ .putFiller f m) →
        e2.buf.length % 2 = 0)
  | [], e, e2, h => by
    simp only [runOps, Option.some.injEq] at h
    subst h
    exact ⟨rfl, fun hb => hb, fun hp _ => hp⟩
  | op :: t, e, e2, h => by
    unfold runOps at h
    cases ho : runOp e op with
    | none => rw [ho] at h; cases h
    | some e1 =>
      rw [ho] at h
      obtain ⟨hc1, hb1, hp1⟩ := runOp_invariant op e e1 ho
      obtain ⟨hc2, hb2, hp2⟩ := runOps_invariant t e1 e2 h
      refine ⟨by rw [hc2, hc1], fun hb => ?_, fun hp hno => ?_⟩
      · have := hb2 (by rw [hc1]; exact hb1 hb)
        rw [hc1] at this
        exact this
      · exact hp2 (hp1 hp (fun f m => hno op (by simp) f m))
          (fun o ho2 f m => hno o (by simp [ho2]) f m)

/-- C7 (amended): starting from a fresh even-capacity encoder, any successful
operation sequence leaves the buffer within its declared capacity; the buffer
length stays even as long as `put_filler` is not used (`put_filler` can leave
any length, see the counterexample); and overflowing writes are rejected:
`put_byte` and `put_bytes` fail hard when the data does not fit. -/
theorem buf_encoder_invariants (cap : Nat) (c : Case) (ops : List EncOp) (e2 : BufEncoder)
    (hcap : cap % 2 = 0) (hrun : runOps (BufEncoder.new cap c) ops = some e2) :
    e2.buf.length ≤ cap
    ∧ ((∀ op ∈ ops, ∀ f m, op ≠ .putFiller f m) → e2.buf.length % 2 = 0)
    ∧ (∀ (e : BufEncoder) (x : Nat), e.cap < e.buf.length + 2 → e.putByte x = none)
    ∧ (∀ (e : BufEncoder) (bs : List Nat), e.spaceRemaining < bs.length →
        e.putBytes bs = none) := by
  obtain ⟨hc, hb, hp⟩ := runOps_invariant ops (BufEncoder.new cap c) e2 hrun
  refine ⟨hb (by simp [BufEncoder.new]), hp (by simp [BufEncoder.new]), ?_, ?_⟩
  · intro e x hlt
    unfold BufEncoder.putByte
    rw [if_neg (by omega)]
  · intro e bs hlt
    unfold BufEncoder.putBytes
    rw [if_neg (by omega)]

/-- C7 counterexample: a single `put_filler` of one space character leaves the
buffer at odd length 1, so the length is not always even. -/
theorem buf_filler_odd_counterexample :
    (runOps (BufEncoder.new 8 .lower) [.putFiller [32] 1]).map (fun e => e.buf.length % 2)
      = some 1 := by
  decide

/-- C7 witness: a concrete filler-free run on a capacity-4 encoder. -/
theorem buf_encoder_invariants_witness :
    ((4 : Nat) % 2 = 0
      ∧ runOps (BufEncoder.new 4 .lower) [.putByte 171, .clear, .putByte 255]
          = some ⟨4, [102, 102], .lower⟩)
    ∧ ((⟨4, [102, 102], .lower⟩ : BufEncoder).buf.length ≤ 4
      ∧ ((∀ op ∈ [EncOp.putByte 171, .clear, .putByte 255], ∀ f m, op ≠ .putFiller f m) →
          (⟨4, [102, 102], .lower⟩ : BufEncoder).buf.length % 2 = 0)
      ∧ (∀ (e : BufEncoder) (x : Nat), e.cap < e.buf.length + 2 → e.putByte x = none)
      ∧ (∀ (e : BufEncoder) (bs : List Nat), e.spaceRemaining < bs.length →
          e.putBytes bs = none)) :=
  ⟨⟨by decide, by decide⟩,
    buf_encoder_invariants 4 .lower [.putByte 171, .clear, .putByte 255]
      ⟨4, [102, 102], .lower⟩ (by decide) (by decide)⟩

theorem trimStart0x_of_not_starts (t : List Nat) (h : startsWith0x t = false) :
    trimStart0x t = t := by
  unfold trimStart0x
  split
  · rename_i tail
    simp [startsWith0x] at h
  · rfl

/-- C9 counterexample: the upper-case prefix `0X` is not stripped (its `X` is
reported as an invalid character at position 1, instead of the remainder `12`
decoding to `0x12`), and repeated lower-case prefixes are all stripped (the
string `0x0x12` decodes to `0x12`, whereas stripping a single prefix would
leave `0x12`, whose `x` is an invalid character). -/
theorem pfx_handling_counterexample :
    fromMaybePfxHexVec [48, 88, 49, 50] = .error (.invalidChar ⟨88, 1⟩)
    ∧ fromNoPrefixHexVec [49, 50] = .ok [18]
    ∧ fromMaybePfxHexVec [48, 88, 49, 50] ≠ fromNoPrefixHexVec [49, 50]
    ∧ fromMaybePfxHexVec [48, 120, 48, 120, 49, 50] = .ok [18]
    ∧ fromNoPrefixHexVec [48, 120, 49, 50] = .error (.invalidChar ⟨120, 1⟩) := by
  refine ⟨by decide, by decide, by decide, by decide, by decide⟩

/-- C9 (amended): `from_maybe_prefixed_hex` strips all leading lower-case `0x`
prefixes (an input not starting with lower-case `0x`, in particular one
starting with `0X`, is decoded unchanged) and then decodes exactly as
`from_no_prefix_hex`; `from_prefixed_hex` returns `MissingPrefix` exactly when
the input does not start with lower-case `0x` and otherwise behaves like
`from_maybe_prefixed_hex` up to the error wrapper. -/
theorem pfx_handling (s t : List Nat) :
    (startsWith0x s = false → fromMaybePfxHexVec s = fromNoPrefixHexVec s)
    ∧ fromMaybePfxHexVec (48 :: 120 :: t) = fromMaybePfxHexVec t
    ∧ (startsWith0x s = false → fromPfxHexVec s = .error (.missingPfx s))
    ∧ (startsWith0x s = true →
        fromPfxHexVec s
          = match fromMaybePfxHexVec s with
            | .ok v => .ok v
            | .error e => .error (.parseHex e)) := by
  refine ⟨?_, ?_, ?_, ?_⟩
  · intro h
    unfold fromMaybePfxHexVec
    rw [h]
    simp
  · unfold fromMaybePfxHexVec
    have h1 : startsWith0x (48 :: 120 :: t) = true := rfl
    have h2 : trimStart0x (48 :: 120 :: t) = trimStart0x t := rfl
    rw [h1, h2]
    by_cases hs : startsWith0x t
    · rw [hs]
      simp
    · rw [Bool.not_eq_true] at hs
      rw [hs]
      simp [trimStart0x_of_not_starts t hs]
  · intro h
    unfold fromPfxHexVec
    rw [h]
    simp
  · intro h
    unfold fromPfxHexVec fromMaybePfxHexVec
    rw [h]
    simp only [Bool.true_eq_false, if_false, if_true]

/-- C9 witness: an unprefixed input and one with a lower-case prefix. -/
theorem pfx_handling_witness :
    (startsWith0x [49, 50] = false)
    ∧ fromMaybePfxHexVec [49, 50] = fromNoPrefixHexVec [49, 50]
    ∧ fromMaybePfxHexVec (48 :: 120 :: [49, 50]) = fromMaybePfxHexVec [49, 50]
    ∧ fromPfxHexVec [49, 50] = .error (.missingPfx [49, 50]) :=
  ⟨by decide, (pfx_handling [49, 50] [49, 50]).1 (by decide),
    (pfx_handling [49, 50] [49, 50]).2.1,
    (pfx_handling [49, 50] [49, 50]).2.2.1 (by decide)⟩

theorem encodeBytes_take (c : Case) : ∀ (k : Nat) (l : List Nat),
    encodeBytes c (l.take k) = (encodeBytes c l).take (2 * k)
  | 0, l => by simp [encodeBytes]
  | k + 1, [] => by simp [encodeBytes]
  | k + 1, x :: t => by
    have e : 2 * (k + 1) = 2 * k + 1 + 1 := by omega
    simp only [List.take_succ_cons, encodeBytes, e, List.take_succ_cons,
      encodeBytes_take c k t]

theorem encodeBytes_getElem?_even (c : Case) : ∀ (b : List Nat) (k : Nat), k < b.length →
    (encodeBytes c b)[2 * k]? = some (byteToChars c.table (b.getD k 0)).1
  | [], k, h => by simp at h
  | x :: t, 0, h => by simp [encodeBytes, List.getD]
  | x :: t, k + 1, h => by
    have h2 : k < t.length := by
      simp only [List.length_cons] at h
      omega
    have e : 2 * (k + 1) = 2 * k + 1 + 1 := by omega
    simp only [encodeBytes, e, List.getElem?_cons_succ, List.getD_cons_succ]
    exact encodeBytes_getElem?_even c t k h2

/-- The array display path truncates to `min(P, N)` characters of the
requested-case encoding, exactly as specified. -/
theorem fmtHexExactBody_take (N : Nat) (bytes : List Nat) (P : Nat) (c : Case)
    (hN : N = 2 * bytes.length) :
    fmtHexExactBody N bytes (some P) c = (encodeBytes c bytes).take (min P N) := by
  show (if P < N then (encodeBytes c (bytes.take ((P + 1) / 2))).take P
      else encodeBytes c bytes) = _
  by_cases hp : P < N
  · rw [if_pos hp, encodeBytes_take, List.take_take]
    congr 1
    omega
  · rw [if_neg hp]
    have e : min P N = N := by omega
    rw [e, hN, ← encodeBytes_length c bytes, List.take_length]

/-- The slice display path truncates to `min(P, 2 * byte_count)` characters of
the lower-case encoding; for `Case::Lower` this is exactly the claimed
behaviour (for `Case::Upper` see the case bug). -/
theorem internalDisplayBody_lower_take (bytes : List Nat) (P : Nat) :
    internalDisplayBody bytes (some P) .lower
      = (encodeBytes .lower bytes).take (min P (2 * bytes.length)) := by
  show (if P / 2 < bytes.length then
      encodeChunks Case.lower (bytes.take (P / 2)) ++
        (if P % 2 = 1 then [(byteToChars Case.lower.table (bytes.getD (P / 2) 0)).1] else [])
    else encodeChunks Case.lower bytes) = _
  by_cases hp : P / 2 < bytes.length
  · rw [if_pos hp, encodeChunks_eq, encodeBytes_take]
    have hmin : min P (2 * bytes.length) = P := by omega
    rw [hmin]
    by_cases ho : P % 2 = 1
    · rw [if_pos ho]
      have hel := encodeBytes_getElem?_even Case.lower bytes (P / 2) hp
      have hleq : P = 2 * (P / 2) + 1 := by omega
      conv_rhs => rw [hleq, List.take_succ]
      rw [hel]
      rfl
    · rw [if_neg ho]
      have hleq : P = 2 * (P / 2) := by omega
      conv_rhs => rw [hleq]
      simp
  · rw [if_neg hp, encodeChunks_eq]
    have e : min P (2 * bytes.length) = 2 * bytes.length := by omega
    rw [e, ← encodeBytes_length Case.lower bytes, List.take_length]

/-- C8 witness: a two-byte write into a one-byte-capacity encoder. -/
theorem put_bytes_min_never_fails_witness :
    ((BufEncoder.new 2 .lower).putBytesMin [42, 255]
      = some ({ BufEncoder.new 2 .lower with
            buf := (BufEncoder.new 2 .lower).buf
              ++ encodeBytes (BufEncoder.new 2 .lower).case
                ([42, 255].take
                  (min (BufEncoder.new 2 .lower).spaceRemaining ([42, 255] : List Nat).length)) },
          [42, 255].drop
            (min (BufEncoder.new 2 .lower).spaceRemaining ([42, 255] : List Nat).length)))
    ∧ (([42, 255] : List Nat).length ≤ (BufEncoder.new 2 .lower).spaceRemaining →
        ((BufEncoder.new 2 .lower).putBytesMin [42, 255]).map Prod.snd = some []) :=
  put_bytes_min_never_fails (BufEncoder.new 2 .lower) [42, 255]
